import Mathlib

/-!
# Verification of the `lzxd` bitstream reader (`src/bitstream.rs`)

Shallow embedding of the LZXD `Bitstream` struct and its operations.

Conventions of the embedding:
* Bytes are `Nat`s `< 256`; `u16` values are `Nat`s `< 2 ^ 16`.
* Machine arithmetic is modelled with explicit `% 2 ^ 16` where a `u16`
  computation can overflow; `x & ((1 <<< b) - 1)` on a `u16` is modelled as
  `x % 2 ^ b` (for `b ≤ 16` the Rust mask is exactly `2 ^ b - 1`, with
  `((1u32 << 16) as u16).wrapping_sub(1) = 0xFFFF`), and a `u16` shift amount
  is masked `% 16` (Rust release semantics of an overlong shift) where the
  source can shift by 16.
* A Rust panic (slice index out of bounds in `advance_buffer` / `peek_bits`,
  or the `assert!(bits <= 16)`) is modelled by returning `Option.none`; the
  Rust functions themselves return bare integers and have no error channel.
-/

structure Bitstream where
  buffer : List Nat
  n : Nat
  remaining : Nat
deriving Repr, DecidableEq

namespace Bitstream

/-- `u16::from_le_bytes([b0, b1])`: little-endian word from two bytes. -/
def fromLeBytes (b0 b1 : Nat) : Nat := b0 + 256 * b1

/-- `u16::rotate_left(n, k)` for `n < 2 ^ 16`: the rotate amount is taken
`% 16`, the top `k % 16` bits wrap around to the bottom. -/
def rotl16 (n k : Nat) : Nat :=
  n % 2 ^ (16 - k % 16) * 2 ^ (k % 16) + n / 2 ^ (16 - k % 16)

/-- `u16::swap_bytes`. -/
def swapBytes16 (x : Nat) : Nat := x % 256 * 256 + x / 256

/-- `Bitstream::new`. -/
def new (buffer : List Nat) : Bitstream :=
  { buffer := buffer, n := 0, remaining := 0 }

/-- `Bitstream::advance_buffer`: load the next 16-bit little-endian word.
Rust indexes `self.buffer[0]` and `self.buffer[1]`, which panics (`none`)
when fewer than two bytes remain. -/
def advance_buffer (s : Bitstream) : Option Bitstream :=
  match s.buffer with
  | b0 :: b1 :: rest =>
    some { buffer := rest, n := fromLeBytes b0 b1, remaining := 16 }
  | _ => none

/-- `Bitstream::read_bit`: a panic inside `advance_buffer` propagates. -/
def read_bit (s : Bitstream) : Option (Nat × Bitstream) :=
  match (if s.remaining == 0 then advance_buffer s else some s) with
  | none => none
  | some t =>
    let n := rotl16 t.n 1
    some (n % 2, { t with n := n, remaining := t.remaining - 1 })

/-- `Bitstream::read_bits`.  The outer `if` is the `assert!(bits <= 16)`
(panic = `none` when violated).  In the first branch the mask
`(1u16 << bits) - 1` is modelled with the shift amount masked `% 16`; in the
second branch `bits2 ≤ 16` always holds and the source's
`((1u32 << bits) as u16).wrapping_sub(1)` is exactly `2 ^ bits2 - 1`. -/
def read_bits (s : Bitstream) (bits : Nat) : Option (Nat × Bitstream) :=
  if bits ≤ 16 then
    if bits ≤ s.remaining then
      let n := rotl16 s.n bits
      some (n % 2 ^ (bits % 16), { s with n := n, remaining := s.remaining - bits })
    else
      let hi := rotl16 s.n s.remaining % 2 ^ (s.remaining % 16)
      let bits2 := bits - s.remaining
      match advance_buffer s with
      | none => none
      | some t =>
        let n := rotl16 t.n bits2
        some (hi * 2 ^ bits2 % 2 ^ 16 + n % 2 ^ bits2,
              { buffer := t.buffer, n := n, remaining := t.remaining - bits2 })
  else none

/-- `Bitstream::peek_bits`: same extraction as `read_bits` but the state is
not advanced.  With an empty buffer the missing word is read as `0`; with a
buffer of exactly one byte the source reads `self.buffer[1]` out of bounds
and panics (`none`). -/
def peek_bits (s : Bitstream) (bits : Nat) : Option Nat :=
  if bits ≤ 16 then
    if bits ≤ s.remaining then
      some (rotl16 s.n bits % 2 ^ (bits % 16))
    else
      let hi := rotl16 s.n s.remaining % 2 ^ (s.remaining % 16)
      let bits2 := bits - s.remaining
      match s.buffer with
      | [] =>
        let n := rotl16 0 bits2
        some (hi * 2 ^ bits2 % 2 ^ 16 + n % 2 ^ bits2)
      | [_] => none
      | b0 :: b1 :: _ =>
        let n := rotl16 (fromLeBytes b0 b1) bits2
        some (hi * 2 ^ bits2 % 2 ^ 16 + n % 2 ^ bits2)
  else none

/-- `Bitstream::read_u16_le`: `self.read_bits(16).swap_bytes()`. -/
def read_u16_le (s : Bitstream) : Option (Nat × Bitstream) :=
  match read_bits s 16 with
  | none => none
  | some (v, s') => some (swapBytes16 v, s')

/-- `Bitstream::read_u32_le`: `(hi << 16) | lo`; `lo < 2 ^ 16`, so the
halves are disjoint and `|` is `+`. -/
def read_u32_le (s : Bitstream) : Option (Nat × Bitstream) :=
  match read_u16_le s with
  | none => none
  | some (lo, s1) =>
    match read_u16_le s1 with
    | none => none
    | some (hi, s2) => some (hi * 2 ^ 16 + lo, s2)

/-- `Bitstream::read_u24_be`: `hi << 8 | lo`; `lo < 2 ^ 8`, so `|` is `+`. -/
def read_u24_be (s : Bitstream) : Option (Nat × Bitstream) :=
  match read_bits s 16 with
  | none => none
  | some (hi, s1) =>
    match read_bits s1 8 with
    | none => none
    | some (lo, s2) => some (hi * 2 ^ 8 + lo, s2)

/-- `Bitstream::is_empty`: `self.buffer.is_empty() && self.peek_bits(self.remaining) == 0`;
`&&` short-circuits, so `peek_bits` only runs when the buffer is empty. -/
def is_empty (s : Bitstream) : Option Bool :=
  if s.buffer.isEmpty then
    match peek_bits s s.remaining with
    | some v => some (v == 0)
    | none => none
  else some false

/-- Byte-level well-formedness plus the `u16` bounds of the two counters. -/
def Wf (s : Bitstream) : Prop :=
  (∀ b ∈ s.buffer, b < 256) ∧ s.n < 2 ^ 16 ∧ s.remaining ≤ 16

/-- The value of the still-unconsumed bits of the lookahead word (they are
the top `remaining` bits of `n`, read MSB-first). -/
def avail (s : Bitstream) : Nat := s.n / 2 ^ (16 - s.remaining)

/-- The bits still stored in the byte buffer, as one MSB-first number:
consecutive little-endian byte pairs, earlier words in the high position.
An odd trailing byte contributes nothing (the source never loads it alone). -/
def bufVal : List Nat → Nat
  | b0 :: b1 :: rest => fromLeBytes b0 b1 * 2 ^ (8 * rest.length) + bufVal rest
  | _ => 0

/-- Total number of bits the stream can still produce (even-length buffer). -/
def streamLen (s : Bitstream) : Nat := s.remaining + 8 * s.buffer.length

/-- All bits the stream can still produce, as one MSB-first number. -/
def streamVal (s : Bitstream) : Nat :=
  avail s * 2 ^ (8 * s.buffer.length) + bufVal s.buffer

/-! ## Packing: the encoder side of the round-trip claim

A sequence of `(value, width)` pairs is packed MSB-first into one big
number, padded with zero bits to a 16-bit boundary, cut into 16-bit words
(MSB-first) and each word stored as a little-endian byte pair. -/

/-- Sum of the widths of a `(value, width)` list. -/
def packLen : List (Nat × Nat) → Nat
  | [] => 0
  | (_, b) :: rest => b + packLen rest

/-- MSB-first concatenation of the values of a `(value, width)` list. -/
def packVal : List (Nat × Nat) → Nat
  | [] => 0
  | (v, _) :: rest => v * 2 ^ packLen rest + packVal rest

/-- Number of 16-bit words needed to hold `n` bits. -/
def numWords (n : Nat) : Nat := (n + 15) / 16

/-- Zero bits appended after `n` packed bits to reach a word boundary. -/
def padBits (n : Nat) : Nat := 16 * numWords n - n

/-- Split `V < 2 ^ (16 * k)` into `k` 16-bit words, MSB-first. -/
def wordsOfVal : Nat → Nat → List Nat
  | 0, _ => []
  | k + 1, V => V / 2 ^ (16 * k) :: wordsOfVal k (V % 2 ^ (16 * k))

/-- Store each 16-bit word as a little-endian byte pair. -/
def bytesOfWords : List Nat → List Nat
  | [] => []
  | w :: ws => w % 256 :: w / 256 :: bytesOfWords ws

/-- The byte stream encoding a `(value, width)` list. -/
def packBytes (L : List (Nat × Nat)) : List Nat :=
  bytesOfWords (wordsOfVal (numWords (packLen L)) (packVal L * 2 ^ padBits (packLen L)))

/-- Read back a list of widths in order, collecting the values. -/
def readAll (s : Bitstream) : List Nat → Option (List Nat)
  | [] => some []
  | b :: rest =>
    match read_bits s b with
    | some (v, s') => Option.map (fun vs => v :: vs) (readAll s' rest)
    | none => none

/-! ## Arithmetic helper lemmas -/

lemma pow2_pos (k : Nat) : 0 < 2 ^ k := pow_pos (by omega) k

lemma pow2_congr {a b : Nat} (h : a = b) : (2:Nat) ^ a = 2 ^ b := by rw [h]

lemma div_pow_lt_pow {n : Nat} (j k : Nat) (h : n < 2 ^ (j + k)) :
    n / 2 ^ j < 2 ^ k := by
  rw [Nat.div_lt_iff_lt_mul (pow2_pos j)]
  calc n < 2 ^ (j + k) := h
    _ = 2 ^ k * 2 ^ j := by rw [pow_add, mul_comm]

lemma combine_lt {a c : Nat} (j k : Nat) (ha : a < 2 ^ j) (hc : c < 2 ^ k) :
    a * 2 ^ k + c < 2 ^ (j + k) := by
  calc a * 2 ^ k + c < a * 2 ^ k + 2 ^ k := by omega
    _ = (a + 1) * 2 ^ k := by ring
    _ ≤ 2 ^ j * 2 ^ k := Nat.mul_le_mul_right _ (by omega)
    _ = 2 ^ (j + k) := (pow_add 2 j k).symm

lemma mul_pow_add_div_pow (a c k : Nat) :
    (a * 2 ^ k + c) / 2 ^ k = a + c / 2 ^ k := by
  rw [mul_comm, Nat.mul_add_div (pow2_pos k)]

lemma mul_pow_add_mod_pow (a c k : Nat) :
    (a * 2 ^ k + c) % 2 ^ k = c % 2 ^ k := by
  rw [mul_comm]
  exact Nat.mul_add_mod _ _ _

/-- Uniqueness of the base-`2 ^ k` decomposition. -/
lemma pow_decomp_unique {a a' c c' k : Nat}
    (h : a * 2 ^ k + c = a' * 2 ^ k + c') (hc : c < 2 ^ k) (hc' : c' < 2 ^ k) :
    a = a' ∧ c = c' := by
  have hdiv := congrArg (· / 2 ^ k) h
  simp only [mul_pow_add_div_pow] at hdiv
  rw [Nat.div_eq_of_lt hc, Nat.div_eq_of_lt hc'] at hdiv
  constructor
  · omega
  · have := h
    nlinarith [hdiv]

lemma rotl16_eq_of_le {b : Nat} (n : Nat) (hb : b ≤ 15) :
    rotl16 n b = n % 2 ^ (16 - b) * 2 ^ b + n / 2 ^ (16 - b) := by
  unfold rotl16
  rw [Nat.mod_eq_of_lt (by omega : b < 16)]

lemma rotl16_sixteen {n : Nat} (hn : n < 2 ^ 16) : rotl16 n 16 = n := by
  unfold rotl16
  norm_num
  omega

lemma rotl16_lt {n : Nat} (b : Nat) (hn : n < 2 ^ 16) : rotl16 n b < 2 ^ 16 := by
  unfold rotl16
  have hs : b % 16 ≤ 15 := by omega
  have hu : n % 2 ^ (16 - b % 16) < 2 ^ (16 - b % 16) := Nat.mod_lt _ (pow2_pos _)
  have hq : n / 2 ^ (16 - b % 16) < 2 ^ (b % 16) := by
    apply div_pow_lt_pow
    calc n < 2 ^ 16 := hn
      _ = 2 ^ (16 - b % 16 + b % 16) := pow2_congr (by omega)
  calc n % 2 ^ (16 - b % 16) * 2 ^ (b % 16) + n / 2 ^ (16 - b % 16)
      < 2 ^ (16 - b % 16 + b % 16) := combine_lt _ _ hu hq
    _ = 2 ^ 16 := pow2_congr (by omega)

/-- Extracting the low `b` bits of `rotate_left(n, b)` recovers the top `b`
bits of `n`. -/
lemma rotl16_mod_pow {n b : Nat} (hn : n < 2 ^ 16) (hb : b ≤ 16) :
    rotl16 n b % 2 ^ b = n / 2 ^ (16 - b) := by
  rcases Nat.lt_or_ge b 16 with h | h
  · rw [rotl16_eq_of_le n (by omega), mul_pow_add_mod_pow]
    apply Nat.mod_eq_of_lt
    apply div_pow_lt_pow
    calc n < 2 ^ 16 := hn
      _ = 2 ^ (16 - b + b) := pow2_congr (by omega)
  · have hb16 : b = 16 := by omega
    subst hb16
    rw [rotl16_sixteen hn, Nat.mod_eq_of_lt hn]
    norm_num

/-- The high `16 - b` bits of `rotate_left(n, b)` are the low `16 - b` bits
of `n`. -/
lemma rotl16_div_pow {n b : Nat} (hn : n < 2 ^ 16) (hb : b ≤ 16) :
    rotl16 n b / 2 ^ b = n % 2 ^ (16 - b) := by
  rcases Nat.lt_or_ge b 16 with h | h
  · rw [rotl16_eq_of_le n (by omega), mul_pow_add_div_pow,
      Nat.div_eq_of_lt (by
        apply div_pow_lt_pow
        calc n < 2 ^ 16 := hn
          _ = 2 ^ (16 - b + b) := pow2_congr (by omega)), add_zero]
  · have hb16 : b = 16 := by omega
    subst hb16
    rw [rotl16_sixteen hn, Nat.div_eq_of_lt hn]
    norm_num
    omega

lemma fromLeBytes_lt {b0 b1 : Nat} (h0 : b0 < 256) (h1 : b1 < 256) :
    fromLeBytes b0 b1 < 2 ^ 16 := by
  unfold fromLeBytes
  omega

lemma bufVal_lt : ∀ {buf : List Nat}, (∀ b ∈ buf, b < 256) →
    bufVal buf < 2 ^ (8 * buf.length)
  | [], _ => by
    have h0 : bufVal [] = 0 := rfl
    rw [h0]
    exact pow2_pos _
  | [b], _ => by
    have h0 : bufVal [b] = 0 := rfl
    rw [h0]
    exact pow2_pos _
  | b0 :: b1 :: rest, h => by
    have h0 : b0 < 256 := h b0 (by simp)
    have h1 : b1 < 256 := h b1 (by simp)
    have hrest : bufVal rest < 2 ^ (8 * rest.length) :=
      bufVal_lt (fun b hb => h b (by simp [hb]))
    show fromLeBytes b0 b1 * 2 ^ (8 * rest.length) + bufVal rest < _
    have hw : fromLeBytes b0 b1 < 2 ^ 16 := fromLeBytes_lt h0 h1
    calc fromLeBytes b0 b1 * 2 ^ (8 * rest.length) + bufVal rest
        < 2 ^ (16 + 8 * rest.length) := combine_lt _ _ hw hrest
      _ = 2 ^ (8 * (b0 :: b1 :: rest).length) := by
        congr 1
        simp [List.length_cons]
        ring

/-! ## The `read_bits` step lemma

On a reachable well-formed state (`remaining ≤ 15`, even buffer) a
`read_bits bits` call splits the stream value at position
`streamLen s - bits`: the top `bits` bits are returned and the rest is the
new stream value. -/

set_option maxHeartbeats 1000000 in
theorem read_bits_step (s : Bitstream) (bits : Nat)
    (hbytes : ∀ b ∈ s.buffer, b < 256) (hn : s.n < 2 ^ 16) (hr : s.remaining ≤ 15)
    (heven : 2 ∣ s.buffer.length) (hb : bits ≤ 16) (hlen : bits ≤ streamLen s) :
    ∃ v s', read_bits s bits = some (v, s')
      ∧ v < 2 ^ bits
      ∧ streamVal s = v * 2 ^ (streamLen s - bits) + streamVal s'
      ∧ streamVal s' < 2 ^ (streamLen s - bits)
      ∧ streamLen s' = streamLen s - bits
      ∧ (∀ b ∈ s'.buffer, b < 256) ∧ s'.n < 2 ^ 16 ∧ s'.remaining ≤ 15
      ∧ 2 ∣ s'.buffer.length := by
  have hm := bufVal_lt hbytes
  rcases le_or_lt bits s.remaining with hble | hbgt
  · -- direct extraction from the current word
    have hb15 : bits ≤ 15 := le_trans hble hr
    have hmod16 : bits % 16 = bits := Nat.mod_eq_of_lt (by omega)
    have heq : read_bits s bits = some (rotl16 s.n bits % 2 ^ (bits % 16),
        { s with n := rotl16 s.n bits, remaining := s.remaining - bits }) := by
      unfold read_bits
      rw [if_pos hb, if_pos hble]
    have hq_lt : s.n / 2 ^ (16 - bits) < 2 ^ bits := by
      apply div_pow_lt_pow
      calc s.n < 2 ^ 16 := hn
        _ = 2 ^ (16 - bits + bits) := pow2_congr (by omega)
    have hu_lt : s.n % 2 ^ (16 - bits) < 2 ^ (16 - bits) := Nat.mod_lt _ (pow2_pos _)
    have hu1_lt : s.n % 2 ^ (16 - bits) / 2 ^ (16 - s.remaining)
        < 2 ^ (s.remaining - bits) := by
      apply div_pow_lt_pow
      calc s.n % 2 ^ (16 - bits) < 2 ^ (16 - bits) := hu_lt
        _ = 2 ^ (16 - s.remaining + (s.remaining - bits)) := pow2_congr (by omega)
    have havail : s.n / 2 ^ (16 - s.remaining)
        = s.n / 2 ^ (16 - bits) * 2 ^ (s.remaining - bits)
          + s.n % 2 ^ (16 - bits) / 2 ^ (16 - s.remaining) := by
      obtain ⟨q, u, hq, hu⟩ : ∃ q u, q = s.n / 2 ^ (16 - bits) ∧ u = s.n % 2 ^ (16 - bits) :=
        ⟨_, _, rfl, rfl⟩
      have hqu : s.n = q * 2 ^ (16 - bits) + u := by
        rw [hq, hu, Nat.div_add_mod']
      have hsplit : (2:Nat) ^ (16 - bits) = 2 ^ (s.remaining - bits) * 2 ^ (16 - s.remaining) := by
        rw [← pow_add]; exact pow2_congr (by omega)
      rw [← hq, ← hu]
      conv_lhs => rw [hqu, hsplit, ← mul_assoc]
      rw [mul_pow_add_div_pow]
    have havail' : rotl16 s.n bits / 2 ^ (16 - (s.remaining - bits))
        = s.n % 2 ^ (16 - bits) / 2 ^ (16 - s.remaining) := by
      have hsplit : (16 : Nat) - (s.remaining - bits) = bits + (16 - s.remaining) := by omega
      rw [hsplit, pow_add, ← Nat.div_div_eq_div_mul, rotl16_div_pow hn hb]
    have hexp : streamLen s - bits = (s.remaining - bits) + 8 * s.buffer.length := by
      unfold streamLen at *
      omega
    refine ⟨_, _, heq, ?_, ?_, ?_, ?_, ?_, ?_, ?_, ?_⟩
    · rw [hmod16, rotl16_mod_pow hn hb]
      exact hq_lt
    · simp only [streamVal, avail]
      rw [hmod16, rotl16_mod_pow hn hb, havail', havail, hexp, pow_add]
      ring
    · simp only [streamVal, avail]
      rw [havail', hexp]
      exact combine_lt _ _ hu1_lt hm
    · simp only [streamLen]
      omega
    · exact hbytes
    · exact rotl16_lt _ hn
    · simp only []
      omega
    · exact heven
  · -- cross-word extraction: load a fresh word
    have hr16 : s.remaining % 16 = s.remaining := Nat.mod_eq_of_lt (by omega)
    obtain ⟨b0, b1, rest, hbuf⟩ : ∃ b0 b1 rest, s.buffer = b0 :: b1 :: rest := by
      rcases hbl : s.buffer with _ | ⟨b0, tail⟩
      · exfalso
        unfold streamLen at hlen
        rw [hbl] at hlen
        simp only [List.length_nil] at hlen
        omega
      · rcases tail with _ | ⟨b1, rest⟩
        · exfalso
          rw [hbl] at heven
          simp only [List.length_cons, List.length_nil] at heven
          omega
        · exact ⟨b0, b1, rest, rfl⟩
    have hb0 : b0 < 256 := hbytes b0 (by rw [hbuf]; simp)
    have hb1 : b1 < 256 := hbytes b1 (by rw [hbuf]; simp)
    have hrest : ∀ b ∈ rest, b < 256 := fun b hb' => hbytes b (by rw [hbuf]; simp [hb'])
    have hw : fromLeBytes b0 b1 < 2 ^ 16 := fromLeBytes_lt hb0 hb1
    have hb2le : bits - s.remaining ≤ 16 := by omega
    have hadv : advance_buffer s = some ⟨rest, fromLeBytes b0 b1, 16⟩ := by
      unfold advance_buffer
      rw [hbuf]
    have heq : read_bits s bits
        = some (rotl16 s.n s.remaining % 2 ^ (s.remaining % 16) * 2 ^ (bits - s.remaining) % 2 ^ 16
                  + rotl16 (fromLeBytes b0 b1) (bits - s.remaining) % 2 ^ (bits - s.remaining),
                ⟨rest, rotl16 (fromLeBytes b0 b1) (bits - s.remaining),
                 16 - (bits - s.remaining)⟩) := by
      unfold read_bits
      rw [if_pos hb, if_neg (by omega), hadv]
    have hA_eq : rotl16 s.n s.remaining % 2 ^ (s.remaining % 16)
        = s.n / 2 ^ (16 - s.remaining) := by
      rw [hr16]
      exact rotl16_mod_pow hn (by omega)
    have hA_lt : s.n / 2 ^ (16 - s.remaining) < 2 ^ s.remaining := by
      apply div_pow_lt_pow
      calc s.n < 2 ^ 16 := hn
        _ = 2 ^ (16 - s.remaining + s.remaining) := pow2_congr (by omega)
    have hlo_eq : rotl16 (fromLeBytes b0 b1) (bits - s.remaining) % 2 ^ (bits - s.remaining)
        = fromLeBytes b0 b1 / 2 ^ (16 - (bits - s.remaining)) := rotl16_mod_pow hw hb2le
    have hwhi_lt : fromLeBytes b0 b1 / 2 ^ (16 - (bits - s.remaining))
        < 2 ^ (bits - s.remaining) := by
      apply div_pow_lt_pow
      calc fromLeBytes b0 b1 < 2 ^ 16 := hw
        _ = 2 ^ (16 - (bits - s.remaining) + (bits - s.remaining)) := pow2_congr (by omega)
    have hAmul_lt : s.n / 2 ^ (16 - s.remaining) * 2 ^ (bits - s.remaining) < 2 ^ 16 := by
      calc s.n / 2 ^ (16 - s.remaining) * 2 ^ (bits - s.remaining)
          < 2 ^ s.remaining * 2 ^ (bits - s.remaining) :=
            mul_lt_mul_of_pos_right hA_lt (pow2_pos _)
        _ = 2 ^ (s.remaining + (bits - s.remaining)) := (pow_add 2 _ _).symm
        _ ≤ 2 ^ 16 := Nat.pow_le_pow_right (by omega) (by omega)
    have havail' : rotl16 (fromLeBytes b0 b1) (bits - s.remaining)
          / 2 ^ (16 - (16 - (bits - s.remaining)))
        = fromLeBytes b0 b1 % 2 ^ (16 - (bits - s.remaining)) := by
      have hc : (16:Nat) - (16 - (bits - s.remaining)) = bits - s.remaining := by omega
      rw [hc, rotl16_div_pow hw hb2le]
    have hwlo_lt : fromLeBytes b0 b1 % 2 ^ (16 - (bits - s.remaining))
        < 2 ^ (16 - (bits - s.remaining)) := Nat.mod_lt _ (pow2_pos _)
    have hD := bufVal_lt hrest
    have hbufval : bufVal (b0 :: b1 :: rest)
        = fromLeBytes b0 b1 * 2 ^ (8 * rest.length) + bufVal rest := rfl
    refine ⟨_, _, heq, ?_, ?_, ?_, ?_, ?_, ?_, ?_, ?_⟩
    · rw [hA_eq, hlo_eq, Nat.mod_eq_of_lt hAmul_lt]
      have hcomb := combine_lt _ _ hA_lt hwhi_lt
      calc s.n / 2 ^ (16 - s.remaining) * 2 ^ (bits - s.remaining)
            + fromLeBytes b0 b1 / 2 ^ (16 - (bits - s.remaining))
          < 2 ^ (s.remaining + (bits - s.remaining)) := hcomb
        _ = 2 ^ bits := pow2_congr (by omega)
    · simp only [streamVal, avail, streamLen]
      rw [hbuf, hbufval, hA_eq, hlo_eq, Nat.mod_eq_of_lt hAmul_lt, havail']
      simp only [List.length_cons]
      conv_lhs => rw [← Nat.div_add_mod (fromLeBytes b0 b1) (2 ^ (16 - (bits - s.remaining)))]
      have h81 : (2:Nat) ^ (8 * (rest.length + 1 + 1))
          = 2 ^ (bits - s.remaining) * 2 ^ (16 - (bits - s.remaining)) * 2 ^ (8 * rest.length) := by
        rw [← pow_add, ← pow_add]; exact pow2_congr (by omega)
      have h82 : (2:Nat) ^ (s.remaining + 8 * (rest.length + 1 + 1) - bits)
          = 2 ^ (16 - (bits - s.remaining)) * 2 ^ (8 * rest.length) := by
        rw [← pow_add]; exact pow2_congr (by omega)
      rw [h81, h82]
      ring
    · simp only [streamVal, avail, streamLen]
      rw [hbuf, havail']
      simp only [List.length_cons]
      have h82 : (2:Nat) ^ (s.remaining + 8 * (rest.length + 1 + 1) - bits)
          = 2 ^ (16 - (bits - s.remaining) + 8 * rest.length) :=
        pow2_congr (by omega)
      rw [h82]
      exact combine_lt _ _ hwlo_lt hD
    · simp only [streamLen]
      rw [hbuf]
      simp only [List.length_cons]
      omega
    · exact hrest
    · exact rotl16_lt _ hw
    · simp only []
      omega
    · rw [hbuf] at heven
      simp only [List.length_cons] at heven
      simp only []
      omega

lemma packVal_lt {L : List (Nat × Nat)} (h : ∀ p ∈ L, p.1 < 2 ^ p.2) :
    packVal L < 2 ^ packLen L := by
  induction L with
  | nil => simp [packVal, packLen]
  | cons p rest ih =>
    obtain ⟨v, b⟩ := p
    have hv : v < 2 ^ b := h (v, b) (by simp)
    have hrest : packVal rest < 2 ^ packLen rest :=
      ih (fun q hq => h q (by simp [hq]))
    show v * 2 ^ packLen rest + packVal rest < 2 ^ (b + packLen rest)
    exact combine_lt _ _ hv hrest

lemma wordsOfVal_length : ∀ (k V : Nat), (wordsOfVal k V).length = k
  | 0, _ => rfl
  | k + 1, V => by
    show (wordsOfVal k (V % 2 ^ (16 * k))).length + 1 = k + 1
    rw [wordsOfVal_length k]

lemma wordsOfVal_lt : ∀ (k V : Nat), V < 2 ^ (16 * k) →
    ∀ w ∈ wordsOfVal k V, w < 2 ^ 16
  | 0, _, _ => by simp [wordsOfVal]
  | k + 1, V, hV => by
    intro w hw
    rcases List.mem_cons.mp hw with h | h
    · subst h
      apply div_pow_lt_pow
      calc V < 2 ^ (16 * (k + 1)) := hV
        _ = 2 ^ (16 * k + 16) := pow2_congr (by omega)
    · exact wordsOfVal_lt k _ (Nat.mod_lt _ (pow2_pos _)) w h

lemma bytesOfWords_length : ∀ ws : List Nat, (bytesOfWords ws).length = 2 * ws.length
  | [] => rfl
  | w :: ws => by
    show (bytesOfWords ws).length + 1 + 1 = 2 * (ws.length + 1)
    rw [bytesOfWords_length ws]
    ring

lemma bytesOfWords_bytes : ∀ ws : List Nat, (∀ w ∈ ws, w < 2 ^ 16) →
    ∀ b ∈ bytesOfWords ws, b < 256
  | [], _ => by simp [bytesOfWords]
  | w :: ws, h => by
    intro b hb
    have hw : w < 2 ^ 16 := h w (by simp)
    rcases List.mem_cons.mp hb with h1 | hb'
    · omega
    · rcases List.mem_cons.mp hb' with h2 | hb''
      · omega
      · exact bytesOfWords_bytes ws (fun u hu => h u (by simp [hu])) b hb''

/-- Decoding the packed byte stream with `bufVal` recovers the packed value. -/
lemma bufVal_bytesOfWords : ∀ (k V : Nat), V < 2 ^ (16 * k) →
    bufVal (bytesOfWords (wordsOfVal k V)) = V
  | 0, V, hV => by
    have h0 : V = 0 := by
      simp at hV
      omega
    simp [h0, wordsOfVal, bytesOfWords, bufVal]
  | k + 1, V, hV => by
    show bufVal (V / 2 ^ (16 * k) % 256 :: V / 2 ^ (16 * k) / 256
        :: bytesOfWords (wordsOfVal k (V % 2 ^ (16 * k)))) = V
    have hlen : (bytesOfWords (wordsOfVal k (V % 2 ^ (16 * k)))).length = 2 * k := by
      rw [bytesOfWords_length, wordsOfVal_length]
    show fromLeBytes (V / 2 ^ (16 * k) % 256) (V / 2 ^ (16 * k) / 256)
        * 2 ^ (8 * (bytesOfWords (wordsOfVal k (V % 2 ^ (16 * k)))).length)
        + bufVal (bytesOfWords (wordsOfVal k (V % 2 ^ (16 * k)))) = V
    rw [hlen, bufVal_bytesOfWords k _ (Nat.mod_lt _ (pow2_pos _))]
    unfold fromLeBytes
    have hmd : V / 2 ^ (16 * k) % 256 + 256 * (V / 2 ^ (16 * k) / 256) = V / 2 ^ (16 * k) :=
      Nat.mod_add_div _ _
    rw [hmd]
    have h8 : (2:Nat) ^ (8 * (2 * k)) = 2 ^ (16 * k) := pow2_congr (by ring)
    rw [h8]
    exact Nat.div_add_mod' V (2 ^ (16 * k))

/-- Reading back the widths of `L` in order from any state whose stream
value is `packVal L` followed by `e` further bits of zero-extension
reproduces the values of `L`. -/
lemma readAll_spec : ∀ (L : List (Nat × Nat)) (s : Bitstream) (e : Nat),
    (∀ b ∈ s.buffer, b < 256) → s.n < 2 ^ 16 → s.remaining ≤ 15 →
    2 ∣ s.buffer.length →
    (∀ p ∈ L, p.2 ≤ 16 ∧ p.1 < 2 ^ p.2) →
    streamLen s = packLen L + e →
    streamVal s = packVal L * 2 ^ e →
    readAll s (L.map Prod.snd) = some (L.map Prod.fst)
  | [], s, e, _, _, _, _, _, _, _ => by simp [readAll]
  | (v, b) :: rest, s, e, hbytes, hn, hr, heven, hwid, hslen, hsval => by
    have hb : b ≤ 16 := (hwid (v, b) (by simp)).1
    have hv : v < 2 ^ b := (hwid (v, b) (by simp)).2
    have hplen : packLen ((v, b) :: rest) = b + packLen rest := rfl
    have hpval : packVal ((v, b) :: rest) = v * 2 ^ packLen rest + packVal rest := rfl
    have hwrest : ∀ p ∈ rest, p.2 ≤ 16 ∧ p.1 < 2 ^ p.2 :=
      fun p hp => hwid p (by simp [hp])
    have hpv_lt : packVal rest < 2 ^ packLen rest :=
      packVal_lt (fun p hp => (hwrest p hp).2)
    have hlenb : b ≤ streamLen s := by omega
    obtain ⟨v', s', heq, hv'_lt, hid, hsv'_lt, hsl', hbytes', hn', hr', heven'⟩ :=
      read_bits_step s b hbytes hn hr heven hb hlenb
    have hk : streamLen s - b = packLen rest + e := by omega
    have hsval' : streamVal s
        = v * 2 ^ (packLen rest + e) + packVal rest * 2 ^ e := by
      rw [hsval, hpval, add_mul, pow_add]
      ring
    have hpve_lt : packVal rest * 2 ^ e < 2 ^ (packLen rest + e) := by
      calc packVal rest * 2 ^ e < 2 ^ packLen rest * 2 ^ e :=
            mul_lt_mul_of_pos_right hpv_lt (pow2_pos _)
        _ = 2 ^ (packLen rest + e) := (pow_add 2 _ _).symm
    have huniq : v' = v ∧ streamVal s' = packVal rest * 2 ^ e := by
      have h := hid
      rw [hk] at h hsv'_lt
      rw [hsval'] at h
      exact pow_decomp_unique h.symm hsv'_lt hpve_lt
    have hrec : readAll s' (rest.map Prod.snd) = some (rest.map Prod.fst) :=
      readAll_spec rest s' e hbytes' hn' hr' heven' hwrest (by omega)
        huniq.2
    show readAll s ((b :: rest.map Prod.snd)) = some (v :: rest.map Prod.fst)
    unfold readAll
    rw [heq]
    simp [hrec, huniq.1]

example : packBytes [(0,1),(1,1),(2,2),(3,2),(4,3),(5,3),(6,3),(7,3),(8,4),(9,4),(10,4)]
    = [0x5D, 0x6E, 0x68, 0xE2] := by decide
example : readAll (new (packBytes [(0,1),(1,1),(2,2),(3,2)])) [1,1,2,2]
    = some [0,1,2,3] := by decide

/-! ## Claim theorems -/

/-- **C1** (confirmed): round-trip.  For every sequence of values `v1..vk`
with widths `b1..bk` (each `1 ≤ bi ≤ 16`, `vi < 2 ^ bi`), packing the values
MSB-first into consecutive 16-bit words, storing the words as little-endian
byte pairs (final word zero-padded) and reading them back with
`read_bits bi` in order returns exactly `v1, ..., vk`. -/
theorem round_trip_read_bits (L : List (Nat × Nat))
    (h : ∀ p ∈ L, 1 ≤ p.2 ∧ p.2 ≤ 16 ∧ p.1 < 2 ^ p.2) :
    readAll (new (packBytes L)) (L.map Prod.snd) = some (L.map Prod.fst) := by
  have hwid : ∀ p ∈ L, p.2 ≤ 16 ∧ p.1 < 2 ^ p.2 :=
    fun p hp => ⟨(h p hp).2.1, (h p hp).2.2⟩
  have hpv : packVal L < 2 ^ packLen L := packVal_lt (fun p hp => (h p hp).2.2)
  have h1 : packLen L + padBits (packLen L) = 16 * numWords (packLen L) := by
    unfold padBits numWords
    omega
  have hbound : packVal L * 2 ^ padBits (packLen L)
      < 2 ^ (16 * numWords (packLen L)) := by
    calc packVal L * 2 ^ padBits (packLen L)
        < 2 ^ packLen L * 2 ^ padBits (packLen L) :=
          mul_lt_mul_of_pos_right hpv (pow2_pos _)
      _ = 2 ^ (packLen L + padBits (packLen L)) := (pow_add 2 _ _).symm
      _ = 2 ^ (16 * numWords (packLen L)) := pow2_congr h1
  have hlen : (packBytes L).length = 2 * numWords (packLen L) := by
    unfold packBytes
    rw [bytesOfWords_length, wordsOfVal_length]
  apply readAll_spec L (new (packBytes L)) (padBits (packLen L))
  · exact bytesOfWords_bytes _ (wordsOfVal_lt _ _ hbound)
  · show (0:Nat) < 2 ^ 16
    exact pow2_pos _
  · show (0:Nat) ≤ 15
    omega
  · show 2 ∣ (packBytes L).length
    rw [hlen]
    exact ⟨_, rfl⟩
  · exact hwid
  · show 0 + 8 * (packBytes L).length = packLen L + padBits (packLen L)
    rw [hlen, h1]
    ring
  · show 0 / 2 ^ (16 - 0) * 2 ^ (8 * (packBytes L).length) + bufVal (packBytes L)
        = packVal L * 2 ^ padBits (packLen L)
    rw [Nat.zero_div, zero_mul, zero_add]
    unfold packBytes
    exact bufVal_bytesOfWords _ _ hbound

/-- Witness for C1 at the repository's own `read_sequential` test data:
the values `0..10` at widths `[1,1,2,2,3,3,3,3,4,4,4]`. -/
theorem round_trip_read_bits_witness :
    readAll (new (packBytes
        [(0,1),(1,1),(2,2),(3,2),(4,3),(5,3),(6,3),(7,3),(8,4),(9,4),(10,4)]))
      (List.map Prod.snd
        [(0,1),(1,1),(2,2),(3,2),(4,3),(5,3),(6,3),(7,3),(8,4),(9,4),(10,4)])
    = some (List.map Prod.fst
        [(0,1),(1,1),(2,2),(3,2),(4,3),(5,3),(6,3),(7,3),(8,4),(9,4),(10,4)]) :=
  round_trip_read_bits _ (by decide)

lemma advance_buffer_none {s : Bitstream} (h : s.buffer.length < 2) :
    advance_buffer s = none := by
  unfold advance_buffer
  rcases hbl : s.buffer with _ | ⟨b0, _ | ⟨b1, rest⟩⟩
  · rfl
  · rfl
  · exfalso
    rw [hbl] at h
    simp only [List.length_cons] at h
    omega

/-- **C2** (corrected), counterexample.  The claim says buffer underflow in
`read_bit`/`read_bits` is surfaced as a distinct, recoverable error signal
rather than crashing.  In the source both functions return a bare `u16` and
have no error channel at all: when a load is needed and fewer than two bytes
remain, `advance_buffer` indexes `self.buffer[0]` out of bounds and the
process panics (modelled as `none`).  No value and no error value is ever
produced. -/
theorem underflow_panics_cex :
    read_bit (new []) = none ∧ read_bits (new []) 1 = none := by decide

/-- **C2** (corrected), amended claim: whenever `read_bit` or `read_bits`
must load a new 16-bit word and fewer than two bytes remain, the operation
panics (slice index out of bounds, modelled as `none`): it neither returns a
bit value nor any recoverable in-band error value. -/
theorem underflow_returns_none (s : Bitstream) :
    (s.remaining = 0 → s.buffer.length < 2 → read_bit s = none)
    ∧ (∀ bits, bits ≤ 16 → s.remaining < bits → s.buffer.length < 2 →
        read_bits s bits = none) := by
  constructor
  · intro h0 hlt
    unfold read_bit
    rw [if_pos (by simp [h0]), advance_buffer_none hlt]
  · intro bits hb hgt hlt
    unfold read_bits
    rw [if_pos hb, if_neg (by omega), advance_buffer_none hlt]

/-- Witness for the amended C2 at concrete underflowing states. -/
theorem underflow_returns_none_witness :
    read_bit (new [5]) = none ∧ read_bits (new [5]) 3 = none :=
  ⟨(underflow_returns_none (new [5])).1 rfl (by decide),
   (underflow_returns_none (new [5])).2 3 (by decide) (by decide) (by decide)⟩

/-- **C3** (corrected), counterexample.  The claim says `peek_bits count`
with `count ≤ 16` never fails at end of input.  But when exactly one byte
remains and the lookahead crosses into the next word, the source takes the
non-empty branch and reads `self.buffer[1]` out of bounds: a panic, not
zero-padding.  Here: a fresh stream over the single byte `[0xff]`,
`peek_bits 1`. -/
theorem peek_bits_one_byte_cex : peek_bits (new [0xff]) 1 = none := by decide

/-- **C3** (corrected), amended claim, for every state and `count ≤ 16`:
(1) a completely *empty* buffer is treated as containing a zero word, so
the lookahead is padded with zero bits; (2) a value is returned whenever
the buffer does not consist of exactly one byte; (3) with exactly one byte
left, *every* peek that crosses into the next word (`remaining < count`)
panics reading `buffer[1]` (returns `none`) instead of zero-padding; (4) a
peek that stays within the current word (`count ≤ remaining`) always
returns a value, whatever the buffer — in particular also with one byte
left. -/
theorem peek_bits_zero_pad (s : Bitstream) (bits : Nat) (hb : bits ≤ 16) :
    (s.buffer = [] → peek_bits s bits = peek_bits { s with buffer := [0, 0] } bits)
    ∧ (s.buffer.length ≠ 1 → ∃ v, peek_bits s bits = some v)
    ∧ (s.buffer.length = 1 → s.remaining < bits → peek_bits s bits = none)
    ∧ (bits ≤ s.remaining → ∃ v, peek_bits s bits = some v) := by
  refine ⟨?_, ?_, ?_, ?_⟩
  · intro hbuf
    unfold peek_bits
    rw [hbuf]
    by_cases h2 : bits ≤ s.remaining
    · rfl
    · simp only [if_neg h2]
      norm_num [fromLeBytes]
  · intro hne
    unfold peek_bits
    rw [if_pos hb]
    by_cases h2 : bits ≤ s.remaining
    · rw [if_pos h2]
      exact ⟨_, rfl⟩
    · rw [if_neg h2]
      rcases hbl : s.buffer with _ | ⟨b0, _ | ⟨b1, rest⟩⟩
      · exact ⟨_, rfl⟩
      · exfalso
        rw [hbl] at hne
        simp at hne
      · exact ⟨_, rfl⟩
  · intro hlen h2
    unfold peek_bits
    rw [if_pos hb, if_neg (by omega)]
    rcases hbl : s.buffer with _ | ⟨b0, _ | ⟨b1, rest⟩⟩
    · rw [hbl] at hlen
      simp at hlen
    · rfl
    · rw [hbl] at hlen
      simp at hlen
  · intro h2
    unfold peek_bits
    rw [if_pos hb, if_pos h2]
    exact ⟨_, rfl⟩

/-- Witness for the amended C3: an empty buffer is peeked as zeros; a
two-byte buffer can be peeked to the full 16 bits; a one-byte buffer with
2 bits in the word panics on a 3-bit peek but serves a 2-bit peek. -/
theorem peek_bits_zero_pad_witness :
    peek_bits (new []) 5 = peek_bits { new [] with buffer := [0, 0] } 5
    ∧ (∃ v, peek_bits (new [0xab, 0xcd]) 16 = some v)
    ∧ peek_bits ⟨[9], 5, 2⟩ 3 = none
    ∧ ∃ v, peek_bits ⟨[9], 5, 2⟩ 2 = some v :=
  ⟨(peek_bits_zero_pad (new []) 5 (by decide)).1 rfl,
   (peek_bits_zero_pad (new [0xab, 0xcd]) 16 (by decide)).2.1 (by decide),
   (peek_bits_zero_pad ⟨[9], 5, 2⟩ 3 (by decide)).2.2.1 (by decide) (by decide),
   (peek_bits_zero_pad ⟨[9], 5, 2⟩ 2 (by decide)).2.2.2 (by decide)⟩

/-- **C4** (corrected), counterexample.  The claim says `read_u16_le` at a
word boundary returns the little-endian interpretation `b0 + 256 * b1` of
the next two bytes.  On `[0x56, 0x78]` the code returns `0x5678`
(big-endian), not `fromLeBytes 0x56 0x78 = 0x7856`. -/
theorem read_u16_le_not_le_cex :
    (read_u16_le (new [0x56, 0x78])).map Prod.fst ≠ some (fromLeBytes 0x56 0x78) := by
  decide

/-- **C4** (corrected), amended claim: `read_u16_le` on a stream at a word
boundary (`remaining = 0`) with at least two bytes left returns the
*byte-swap* of the little-endian word, i.e. the next two bytes `[b0, b1]`
interpreted big-endian: `256 * b0 + b1`. -/
theorem read_u16_le_big_endian (b0 b1 : Nat) (rest : List Nat) (n : Nat)
    (h0 : b0 < 256) (h1 : b1 < 256) :
    read_u16_le ⟨b0 :: b1 :: rest, n, 0⟩
      = some (256 * b0 + b1, ⟨rest, fromLeBytes b0 b1, 0⟩) := by
  have hw : fromLeBytes b0 b1 < 2 ^ 16 := fromLeBytes_lt h0 h1
  have h16 : rotl16 (fromLeBytes b0 b1) 16 = fromLeBytes b0 b1 := rotl16_sixteen hw
  have hadv : advance_buffer ⟨b0 :: b1 :: rest, n, 0⟩
      = some ⟨rest, fromLeBytes b0 b1, 16⟩ := rfl
  have hw65 : fromLeBytes b0 b1 < 65536 := by
    unfold fromLeBytes
    omega
  have heq : read_bits ⟨b0 :: b1 :: rest, n, 0⟩ 16
      = some (fromLeBytes b0 b1, ⟨rest, fromLeBytes b0 b1, 0⟩) := by
    unfold read_bits
    rw [if_pos (by omega : (16:Nat) ≤ 16), if_neg (by omega : ¬((16:Nat) ≤ 0)), hadv]
    simp [h16, Nat.mod_eq_of_lt hw65]
  have hswap : swapBytes16 (fromLeBytes b0 b1) = 256 * b0 + b1 := by
    unfold swapBytes16 fromLeBytes
    omega
  unfold read_u16_le
  rw [heq]
  show some (swapBytes16 (fromLeBytes b0 b1), (⟨rest, fromLeBytes b0 b1, 0⟩ : Bitstream))
      = some (256 * b0 + b1, (⟨rest, fromLeBytes b0 b1, 0⟩ : Bitstream))
  rw [hswap]

/-- Witness for the amended C4 at the bytes `[0x07, 0xE0]` of the
repository's `read_16le_aligned` test: the result is `0x07E0`. -/
theorem read_u16_le_big_endian_witness :
    read_u16_le ⟨[0x07, 0xE0], 0, 0⟩ = some (0x07E0, ⟨[], fromLeBytes 0x07 0xE0, 0⟩) :=
  read_u16_le_big_endian 0x07 0xE0 [] 0 (by decide) (by decide)

/-- **C5** (confirmed): `read_u32_le` is two successive `read_u16_le` reads
combined as `(second << 16) | first` (the halves are disjoint, so `|` is
`+`); concretely, `[0x56, 0x78, 0x12, 0x34]` yields `0x12345678`. -/
theorem read_u32_le_combines :
    (∀ (s s1 s2 : Bitstream) (v1 v2 : Nat),
      read_u16_le s = some (v1, s1) → read_u16_le s1 = some (v2, s2) →
      read_u32_le s = some (v2 * 2 ^ 16 + v1, s2))
    ∧ read_u32_le (new [0x56, 0x78, 0x12, 0x34]) = some (0x12345678, ⟨[], 0x3412, 0⟩) := by
  constructor
  · intro s s1 s2 v1 v2 h1 h2
    unfold read_u32_le
    rw [h1]
    show (match read_u16_le s1 with
      | none => none
      | some (hi, s2) => some (hi * 2 ^ 16 + v1, s2)) = some (v2 * 2 ^ 16 + v1, s2)
    rw [h2]
  · decide

/-- Witness for C5: instantiate the general combination law on the concrete
four-byte stream `[0x56, 0x78, 0x12, 0x34]`. -/
theorem read_u32_le_combines_witness :
    read_u32_le (new [0x56, 0x78, 0x12, 0x34]) = some (0x1234 * 2 ^ 16 + 0x5678, ⟨[], 0x3412, 0⟩) :=
  read_u32_le_combines.1 (new [0x56, 0x78, 0x12, 0x34]) ⟨[0x12, 0x34], 0x7856, 0⟩
    ⟨[], 0x3412, 0⟩ 0x5678 0x1234 (by decide) (by decide)

/-- **C6** (confirmed): with at least two bytes left in the buffer and
`count ≤ 16`, `read_bits` succeeds and `peek_bits` returns exactly the value
`read_bits` returns.  `peek_bits` takes the state by value and returns only
a number, so it leaves `(buffer, word, remaining)` unchanged by
construction; hence two consecutive peeks agree and later reads are
unaffected. -/
theorem peek_bits_agrees_read_bits (s : Bitstream) (count : Nat)
    (hlen : 2 ≤ s.buffer.length) (hc : count ≤ 16) :
    ∃ v s', read_bits s count = some (v, s') ∧ peek_bits s count = some v := by
  by_cases h2 : count ≤ s.remaining
  · have heq : read_bits s count = some (rotl16 s.n count % 2 ^ (count % 16),
        { s with n := rotl16 s.n count, remaining := s.remaining - count }) := by
      unfold read_bits
      rw [if_pos hc, if_pos h2]
    have hpeek : peek_bits s count = some (rotl16 s.n count % 2 ^ (count % 16)) := by
      unfold peek_bits
      rw [if_pos hc, if_pos h2]
    exact ⟨_, _, heq, hpeek⟩
  · obtain ⟨b0, b1, rest, hbuf⟩ : ∃ b0 b1 rest, s.buffer = b0 :: b1 :: rest := by
      rcases hbl : s.buffer with _ | ⟨b0, _ | ⟨b1, rest⟩⟩
      · rw [hbl] at hlen
        simp at hlen
      · rw [hbl] at hlen
        simp at hlen
      · exact ⟨b0, b1, rest, rfl⟩
    have hadv : advance_buffer s = some ⟨rest, fromLeBytes b0 b1, 16⟩ := by
      unfold advance_buffer
      rw [hbuf]
    have heq : read_bits s count
        = some (rotl16 s.n s.remaining % 2 ^ (s.remaining % 16) * 2 ^ (count - s.remaining) % 2 ^ 16
                  + rotl16 (fromLeBytes b0 b1) (count - s.remaining) % 2 ^ (count - s.remaining),
                ⟨rest, rotl16 (fromLeBytes b0 b1) (count - s.remaining),
                 16 - (count - s.remaining)⟩) := by
      unfold read_bits
      rw [if_pos hc, if_neg h2, hadv]
    have hpeek : peek_bits s count
        = some (rotl16 s.n s.remaining % 2 ^ (s.remaining % 16) * 2 ^ (count - s.remaining) % 2 ^ 16
                  + rotl16 (fromLeBytes b0 b1) (count - s.remaining) % 2 ^ (count - s.remaining)) := by
      unfold peek_bits
      rw [if_pos hc, if_neg h2, hbuf]
    exact ⟨_, _, heq, hpeek⟩

/-- Witness for C6 on a concrete two-byte stream and a cross-word count. -/
theorem peek_bits_agrees_read_bits_witness :
    ∃ v s', read_bits (new [0xab, 0xcd]) 7 = some (v, s')
      ∧ peek_bits (new [0xab, 0xcd]) 7 = some v :=
  peek_bits_agrees_read_bits (new [0xab, 0xcd]) 7 (by decide) (by decide)

/-- **C8** (confirmed): asking for more than 16 bits fails the
`assert!(bits <= 16)` immediately: both `read_bits` and `peek_bits` produce
no value at all (and in particular no truncated value and no state
change). -/
theorem over_sixteen_rejected (s : Bitstream) (count : Nat) (h : 16 < count) :
    read_bits s count = none ∧ peek_bits s count = none := by
  constructor
  · unfold read_bits
    rw [if_neg (by omega)]
  · unfold peek_bits
    rw [if_neg (by omega)]

/-- Witness for C8 at `count = 17`. -/
theorem over_sixteen_rejected_witness :
    read_bits (new [1, 2]) 17 = none ∧ peek_bits (new [1, 2]) 17 = none :=
  over_sixteen_rejected (new [1, 2]) 17 (by decide)

lemma advance_buffer_remaining {s t : Bitstream} (h : advance_buffer s = some t) :
    t.remaining = 16 := by
  unfold advance_buffer at h
  rcases hbl : s.buffer with _ | ⟨b0, _ | ⟨b1, rest⟩⟩
  · rw [hbl] at h
    simp at h
  · rw [hbl] at h
    simp at h
  · rw [hbl] at h
    injection h with h2
    rw [← h2]

/-- After any successful `read_bit` the bit counter either shrank or is at
most 15 (it is 15 right after a reload). -/
lemma read_bit_remaining {s : Bitstream} {v : Nat} {s' : Bitstream}
    (h : read_bit s = some (v, s')) :
    s'.remaining ≤ s.remaining ∨ s'.remaining ≤ 15 := by
  unfold read_bit at h
  by_cases h0 : s.remaining = 0
  · rw [if_pos (by simp [h0])] at h
    rcases hadv : advance_buffer s with _ | t
    · rw [hadv] at h
      simp at h
    · rw [hadv] at h
      have ht := advance_buffer_remaining hadv
      simp at h
      right
      rw [← h.2]
      show t.remaining - 1 ≤ 15
      omega
  · rw [if_neg (by simp [h0])] at h
    simp at h
    left
    rw [← h.2]
    show s.remaining - 1 ≤ s.remaining
    omega

/-- After any successful `read_bits` the bit counter either shrank or is at
most 15 (the cross-word branch leaves `16 - bits2 ≤ 15`). -/
lemma read_bits_remaining {s : Bitstream} {bits v : Nat} {s' : Bitstream}
    (h : read_bits s bits = some (v, s')) :
    s'.remaining ≤ s.remaining ∨ s'.remaining ≤ 15 := by
  unfold read_bits at h
  by_cases hb : bits ≤ 16
  · rw [if_pos hb] at h
    by_cases h2 : bits ≤ s.remaining
    · rw [if_pos h2] at h
      simp at h
      left
      rw [← h.2]
      show s.remaining - bits ≤ s.remaining
      omega
    · rw [if_neg h2] at h
      rcases hadv : advance_buffer s with _ | t
      · rw [hadv] at h
        simp at h
      · rw [hadv] at h
        have ht := advance_buffer_remaining hadv
        simp at h
        right
        rw [← h.2]
        show t.remaining - (bits - s.remaining) ≤ 15
        omega
  · rw [if_neg hb] at h
    simp at h

lemma read_u16_le_remaining {s : Bitstream} {v : Nat} {s' : Bitstream}
    (h : read_u16_le s = some (v, s')) :
    s'.remaining ≤ s.remaining ∨ s'.remaining ≤ 15 := by
  unfold read_u16_le at h
  rcases hb : read_bits s 16 with _ | ⟨v0, s0⟩
  · rw [hb] at h
    simp at h
  · rw [hb] at h
    simp at h
    rw [← h.2]
    exact read_bits_remaining hb

lemma read_u32_le_remaining {s : Bitstream} {v : Nat} {s' : Bitstream}
    (h : read_u32_le s = some (v, s')) :
    s'.remaining ≤ s.remaining ∨ s'.remaining ≤ 15 := by
  unfold read_u32_le at h
  rcases h1 : read_u16_le s with _ | ⟨v1, s1⟩
  · rw [h1] at h
    simp at h
  · rw [h1] at h
    have h' : (match read_u16_le s1 with
        | none => none
        | some (hi, s2) => some (hi * 2 ^ 16 + v1, s2)) = some (v, s') := h
    clear h
    rcases h2 : read_u16_le s1 with _ | ⟨v2, s2⟩
    · rw [h2] at h'
      simp at h'
    · rw [h2] at h'
      simp at h'
      have ha := read_u16_le_remaining h1
      have hb := read_u16_le_remaining h2
      rw [← h'.2]
      omega

lemma read_u24_be_remaining {s : Bitstream} {v : Nat} {s' : Bitstream}
    (h : read_u24_be s = some (v, s')) :
    s'.remaining ≤ s.remaining ∨ s'.remaining ≤ 15 := by
  unfold read_u24_be at h
  rcases h1 : read_bits s 16 with _ | ⟨v1, s1⟩
  · rw [h1] at h
    simp at h
  · rw [h1] at h
    have h' : (match read_bits s1 8 with
        | none => none
        | some (lo, s2) => some (v1 * 2 ^ 8 + lo, s2)) = some (v, s') := h
    clear h
    rcases h2 : read_bits s1 8 with _ | ⟨v2, s2⟩
    · rw [h2] at h'
      simp at h'
    · rw [h2] at h'
      simp at h'
      have ha := read_bits_remaining h1
      have hb := read_bits_remaining h2
      rw [← h'.2]
      omega

/-- **C7** (confirmed): `is_empty` is `false` whenever a nonzero bit
remains, and is `true` exactly when the buffer is exhausted and all
unconsumed lookahead bits are zero.  Stated on reachable states
(`remaining ≤ 15`, see C10); the unconsumed bits of the word `n` have the
value `n / 2 ^ (16 - remaining)`.  Concretely: the empty stream is
immediately empty; over `[0xab, 0xcd]` the stream is not empty after 15
bits, and empty after the 16th bit. -/
theorem is_empty_spec :
    (∀ s : Bitstream, s.n < 2 ^ 16 → s.remaining ≤ 15 →
      is_empty s = some (s.buffer.isEmpty && (s.n / 2 ^ (16 - s.remaining) == 0)))
    ∧ is_empty (new []) = some true
    ∧ (do
        let (_, s) ← read_bits (new [0xab, 0xcd]) 15
        is_empty s) = some false
    ∧ (do
        let (_, s) ← read_bits (new [0xab, 0xcd]) 15
        let (_, s) ← read_bit s
        is_empty s) = some true := by
  refine ⟨fun s hn hr => ?_, by decide, by decide, by decide⟩
  unfold is_empty
  rcases hbl : s.buffer with _ | ⟨b, tail⟩
  · have hpeek : peek_bits s s.remaining = some (s.n / 2 ^ (16 - s.remaining)) := by
      unfold peek_bits
      rw [if_pos (by omega : s.remaining ≤ 16), if_pos (le_refl s.remaining),
        Nat.mod_eq_of_lt (by omega : s.remaining < 16), rotl16_mod_pow hn (by omega)]
    simp [hpeek]
  · simp

/-- Witness for C7 at a state with one leftover nonzero bit. -/
theorem is_empty_spec_witness : is_empty ⟨[], 32768, 1⟩ = some false := by
  have h := is_empty_spec.1 ⟨[], 32768, 1⟩ (by decide) (by decide)
  simpa using h

/-- **C9** (confirmed): `remaining ≤ 16` (and trivially `0 ≤ remaining`)
holds after `new` and is preserved by every operation that completes.
`peek_bits` and `is_empty` take the state by value and return no state, so
they preserve every state property by construction. -/
theorem remaining_le_sixteen_invariant :
    (∀ buf, (new buf).remaining ≤ 16)
    ∧ (∀ s v s', s.remaining ≤ 16 → read_bit s = some (v, s') → s'.remaining ≤ 16)
    ∧ (∀ s bits v s', s.remaining ≤ 16 → read_bits s bits = some (v, s') →
        s'.remaining ≤ 16)
    ∧ (∀ s v s', s.remaining ≤ 16 → read_u16_le s = some (v, s') → s'.remaining ≤ 16)
    ∧ (∀ s v s', s.remaining ≤ 16 → read_u32_le s = some (v, s') → s'.remaining ≤ 16)
    ∧ (∀ s v s', s.remaining ≤ 16 → read_u24_be s = some (v, s') → s'.remaining ≤ 16) := by
  refine ⟨fun buf => by show (0:Nat) ≤ 16; omega, fun s v s' hr h => ?_,
    fun s bits v s' hr h => ?_,
    fun s v s' hr h => ?_, fun s v s' hr h => ?_, fun s v s' hr h => ?_⟩
  · have := read_bit_remaining h
    omega
  · have := read_bits_remaining h
    omega
  · have := read_u16_le_remaining h
    omega
  · have := read_u32_le_remaining h
    omega
  · have := read_u24_be_remaining h
    omega

/-- Witness for C9: a concrete completed `read_bits` call. -/
theorem remaining_le_sixteen_invariant_witness :
    (⟨[], 59093, 1⟩ : Bitstream).remaining ≤ 16 :=
  remaining_le_sixteen_invariant.2.2.1 (new [0xab, 0xcd]) 15 26325 ⟨[], 59093, 1⟩
    (by decide) (by decide)

/-- **C10** (confirmed): the strengthened reachable-state invariant
`remaining ≤ 15` holds after `new` and is preserved by every completed
public mutating operation (`remaining = 16` exists only transiently inside
`advance_buffer`).  Consequently the direct-extraction branch of
`read_bits`/`peek_bits` only runs with `bits ≤ remaining ≤ 15`, where the
`u16` mask `(1 << bits) - 1` never shifts by 16: the result carries the
unwrapped mask `2 ^ bits - 1` (exponent `bits`, not `bits % 16`). -/
theorem remaining_le_fifteen_invariant :
    (∀ buf, (new buf).remaining ≤ 15)
    ∧ (∀ s v s', s.remaining ≤ 15 → read_bit s = some (v, s') → s'.remaining ≤ 15)
    ∧ (∀ s bits v s', s.remaining ≤ 15 → read_bits s bits = some (v, s') →
        s'.remaining ≤ 15)
    ∧ (∀ s v s', s.remaining ≤ 15 → read_u16_le s = some (v, s') → s'.remaining ≤ 15)
    ∧ (∀ s v s', s.remaining ≤ 15 → read_u32_le s = some (v, s') → s'.remaining ≤ 15)
    ∧ (∀ s v s', s.remaining ≤ 15 → read_u24_be s = some (v, s') → s'.remaining ≤ 15)
    ∧ (∀ s bits, s.remaining ≤ 15 → bits ≤ s.remaining →
        read_bits s bits = some (rotl16 s.n bits % 2 ^ bits,
          { s with n := rotl16 s.n bits, remaining := s.remaining - bits })
        ∧ peek_bits s bits = some (rotl16 s.n bits % 2 ^ bits)) := by
  refine ⟨fun buf => by show (0:Nat) ≤ 15; omega, fun s v s' hr h => ?_,
    fun s bits v s' hr h => ?_,
    fun s v s' hr h => ?_, fun s v s' hr h => ?_, fun s v s' hr h => ?_,
    fun s bits hr h2 => ?_⟩
  · have := read_bit_remaining h
    omega
  · have := read_bits_remaining h
    omega
  · have := read_u16_le_remaining h
    omega
  · have := read_u32_le_remaining h
    omega
  · have := read_u24_be_remaining h
    omega
  · have hmod : bits % 16 = bits := Nat.mod_eq_of_lt (by omega)
    constructor
    · unfold read_bits
      rw [if_pos (by omega), if_pos h2, hmod]
    · unfold peek_bits
      rw [if_pos (by omega), if_pos h2, hmod]

/-- Witness for C10: the invariant at a concrete completed read, and the
unwrapped mask on a concrete direct-branch extraction. -/
theorem remaining_le_fifteen_invariant_witness :
    (⟨[], 59093, 1⟩ : Bitstream).remaining ≤ 15
    ∧ read_bits ⟨[], 40000, 7⟩ 3 = some (rotl16 40000 3 % 2 ^ 3,
        { (⟨[], 40000, 7⟩ : Bitstream) with n := rotl16 40000 3, remaining := 7 - 3 }) :=
  ⟨remaining_le_fifteen_invariant.2.2.1 (new [0xab, 0xcd]) 15 26325 ⟨[], 59093, 1⟩
      (by decide) (by decide),
   (remaining_le_fifteen_invariant.2.2.2.2.2.2 ⟨[], 40000, 7⟩ 3 (by decide) (by decide)).1⟩

example : read_bits (new [0x07, 0xE0]) 16 = some (0xE007, ⟨[], 0xE007, 0⟩) := by decide
example : read_u16_le (new [0x07, 0xE0]) = some (0x07E0, ⟨[], 0xE007, 0⟩) := by decide
example : read_u32_le (new [0x56, 0x78, 0x12, 0x34]) = some (0x12345678, ⟨[], 0x3412, 0⟩) := by
  decide
example : is_empty (new []) = some true := by decide
example : (do
    let (_, s) ← read_bits (new [0xab, 0xcd]) 15
    is_empty s) = some false := by decide
example : (do
    let (_, s) ← read_bits (new [0xab, 0xcd]) 15
    let (_, s) ← read_bit s
    is_empty s) = some true := by decide
example : peek_bits (new [0xff]) 1 = none := by decide
example : read_bits (new []) 1 = none := by decide

end Bitstream
